import Mathlib

/-!
Verification of the web3_docs_scraper repository against its specification.

The repository's frontend (React components) is embedded directly from the
source files under `src/frontend` and `src/unnamed`.  The backend described by
the specification (crawler, job store, pipeline runner, search) is not present
in the source tree — only its callers, documentation and tests are — so those
components are modelled from the specification's words, as marked in the doc
comments of the corresponding definitions.
-/

set_option autoImplicit false

namespace Scraper

/-! ## Job status and records (spec §3) -/

/-- Modelled from the spec: Job `status` is one of
queued, processing, completed, failed (spec §3, backend absent from src). -/
inductive JobStatus where
  | queued
  | processing
  | completed
  | failed
deriving DecidableEq, Repr

/-- Modelled from the spec: a Job record (spec §3; id, seed url, bounds,
status, error).  Timestamps are omitted: no claim mentions them. -/
structure Job where
  id : Nat
  url : String
  maxPages : Nat
  maxDepth : Nat
  status : JobStatus
  error : Option String
deriving DecidableEq, Repr

/-- Modelled from the spec: a Summary record (spec §3). -/
structure Summary where
  id : Nat
  jobId : Nat
  url : String
  title : String
  content : String
  summary : String
  createdAt : Nat
deriving DecidableEq, Repr

/-! ## JobStore (spec §4.2 and §4.3) -/

/-- Modelled from the spec: the error taxonomy of the store boundary
(spec §4.3 and §7: InvalidInput, NotFound, Conflict). -/
inductive StoreError where
  | invalidInput
  | notFound
  | conflict
deriving DecidableEq, Repr

/-- Payload passed to `Complete`: the Summary fields the pipeline produced
(spec §4.2); `id` and `jobId` are assigned by the store. -/
structure SummaryData where
  url : String
  title : String
  content : String
  summary : String
  createdAt : Nat
deriving DecidableEq, Repr

/-- Modelled from the spec: the shared durable store owning Job and Summary
records (spec §3 and §4.3), with monotone fresh-id counters
(spec §3: `id` unique, monotonically assigned). -/
structure Store where
  jobs : List Job
  summaries : List Summary
  nextJobId : Nat
  nextSummaryId : Nat
deriving DecidableEq, Repr

/-- The empty store a fresh backend starts from. -/
def initStore : Store := ⟨[], [], 1, 1⟩

/-- Modelled from the spec: `Enqueue(url, maxPages, maxDepth) → Job status queued`,
failing with `InvalidInput` when the bounds are violated (spec §4.2); the bounds
are `max_pages ∈ [1,20]`, `max_depth ∈ [1,5]` (spec §6 table). -/
def createJob (s : Store) (url : String) (mp md : Nat) :
    Except StoreError (Job × Store) :=
  if 1 ≤ mp ∧ mp ≤ 20 ∧ 1 ≤ md ∧ md ≤ 5 then
    let j : Job := ⟨s.nextJobId, url, mp, md, .queued, none⟩
    .ok (j, { s with jobs := s.jobs ++ [j], nextJobId := s.nextJobId + 1 })
  else
    .error .invalidInput

/-- Modelled from the spec: the selection step of `Claim()` — find the first
`queued` job, transition it to `processing` and return it (spec §4.2). -/
def claimFirst : List Job → Option (Job × List Job)
  | [] => none
  | j :: rest =>
    if j.status = .queued then
      some ({ j with status := .processing }, { j with status := .processing } :: rest)
    else
      (claimFirst rest).map (fun p => (p.1, j :: p.2))

/-- Modelled from the spec: `Claim()` — atomically selects one queued job,
transitions it to `processing`, returns it (spec §4.2).  The spec requires the
operation to be linearizable (spec §5), so a concurrent history of Claims is
modelled as a sequence of these atomic steps. -/
def claimStore (s : Store) : Option Job × Store :=
  match claimFirst s.jobs with
  | none => (none, s)
  | some (c, l) => (some c, { s with jobs := l })

/-- Modelled from the spec: the job-side effect of `Complete`/`MarkFailed`:
move the (first) job with the given id from `processing` to the terminal
status; `none` when no such processing job exists (the `Conflict` case,
spec §4.3, which leaves the store unchanged). -/
def setTerminal (jid : Nat) (st : JobStatus) (err : Option String) :
    List Job → Option (List Job)
  | [] => none
  | j :: rest =>
    if j.id = jid ∧ j.status = .processing then
      some ({ j with status := st, error := err } :: rest)
    else
      (setTerminal jid st err rest).map (j :: ·)

/-- Modelled from the spec: `Complete(job, summary)` — atomically transitions
the job to `completed` and creates the Summary record in one unit; either both
happen or neither (spec §4.2). -/
def completeStore (s : Store) (jid : Nat) (d : SummaryData) : Store :=
  match setTerminal jid .completed none s.jobs with
  | some l =>
    { s with
      jobs := l
      summaries :=
        ⟨s.nextSummaryId, jid, d.url, d.title, d.content, d.summary, d.createdAt⟩
          :: s.summaries
      nextSummaryId := s.nextSummaryId + 1 }
  | none => s

/-- Modelled from the spec: `MarkFailed` — transitions a processing job to
`failed` with a stored error message (spec §4.2 `Run`). -/
def markFailedStore (s : Store) (jid : Nat) (msg : String) : Store :=
  match setTerminal jid .failed (some msg) s.jobs with
  | some l => { s with jobs := l }
  | none => s

/-- Modelled from the spec: `DeleteSummary(id)` — removes the summary record
(spec §4.3 public contract, §6 Delete summary). -/
def deleteSummaryStore (s : Store) (sid : Nat) : Store :=
  { s with summaries := s.summaries.filter (fun sm => sm.id ≠ sid) }

/-- One atomic store operation; a concurrent execution of runners is a
sequence of these (the spec requires every mutation to be linearizable,
spec §5). -/
inductive StoreOp where
  | createJob (url : String) (mp md : Nat)
  | claim
  | complete (jid : Nat) (d : SummaryData)
  | markFailed (jid : Nat) (msg : String)
  | deleteSummary (sid : Nat)
deriving DecidableEq, Repr

/-- Effect of one atomic operation on the store; failing operations
(InvalidInput, NotFound, Conflict) leave the store unchanged. -/
def step (s : Store) : StoreOp → Store
  | .createJob url mp md =>
    match createJob s url mp md with
    | .ok p => p.2
    | .error _ => s
  | .claim => (claimStore s).2
  | .complete jid d => completeStore s jid d
  | .markFailed jid msg => markFailedStore s jid msg
  | .deleteSummary sid => deleteSummaryStore s sid

/-- Apply a sequence of store operations. -/
def applyOps (s : Store) (ops : List StoreOp) : Store := ops.foldl step s

/-- A store state reachable from the fresh store by some operation history. -/
def Reachable (s : Store) : Prop := ∃ ops : List StoreOp, s = applyOps initStore ops

/-- Status of the (first) job with the given id. -/
def findStatus (i : Nat) : List Job → Option JobStatus
  | [] => none
  | j :: rest => if j.id = i then some j.status else findStatus i rest

/-- Status of job `i` in store `s` (the `Job status` query of spec §6). -/
def statusOf (s : Store) (i : Nat) : Option JobStatus := findStatus i s.jobs

/-- The forward order on job statuses:
queued → processing → completed or failed (spec §3 invariant). -/
def statusLE : JobStatus → JobStatus → Bool
  | .queued, _ => true
  | .processing, .queued => false
  | .processing, _ => true
  | .completed, .completed => true
  | .completed, _ => false
  | .failed, .failed => true
  | .failed, _ => false

/-! ## Crawler (spec §4.1) -/

/-- Modelled from the spec: the result of fetching and link-extracting one
page — raw content plus the outbound links as produced by the LinkExtractor
(already restricted to the seed's host and normalized, spec §2, §4.1). -/
structure Page where
  content : String
  links : List String
deriving DecidableEq, Repr

/-- Output of a crawl: the collected pages `(url, rawHTML, depth)` in crawl
order, plus the trace of URLs handed to the Fetcher (used to reason about
duplicate fetches). -/
structure CrawlOut where
  pages : List (String × String × Nat)
  fetched : List String
deriving DecidableEq, Repr

/-- Modelled from the spec: the breadth-first crawl loop (spec §4.1).  Pop the
next frontier entry; skip it when already visited; otherwise fetch it
(a `none` page is a fetch failure — soft, the crawl continues); on success add
the url to `visited`, append the page to the result, and — only while the
current depth is below `maxDepth` and the result is not full — enqueue the
extracted links not yet in `visited` at depth + 1.  Traversal stops when the
frontier is empty or the result size reaches `maxPages`. -/
def crawlLoop (web : String → Option Page) (maxPages maxDepth : Nat)
    (visited : List String) (frontier : List (String × Nat)) (acc : CrawlOut) :
    CrawlOut :=
  if maxPages ≤ acc.pages.length then acc
  else
    match frontier with
    | [] => acc
    | (u, d) :: rest =>
      if u ∈ visited then
        crawlLoop web maxPages maxDepth visited rest acc
      else
        match web u with
        | none =>
          crawlLoop web maxPages maxDepth visited rest
            ⟨acc.pages, acc.fetched ++ [u]⟩
        | some pg =>
          let visited' := u :: visited
          let acc' : CrawlOut :=
            ⟨acc.pages ++ [(u, pg.content, d)], acc.fetched ++ [u]⟩
          if d < maxDepth ∧ acc'.pages.length < maxPages then
            let fresh := (pg.links.filter (fun v => v ∉ visited')).map (fun v => (v, d + 1))
            crawlLoop web maxPages maxDepth visited' (rest ++ fresh) acc'
          else
            crawlLoop web maxPages maxDepth visited' rest acc'
termination_by (maxPages - acc.pages.length, frontier.length)
decreasing_by
  · apply Prod.Lex.right; simp
  · apply Prod.Lex.right; simp
  · apply Prod.Lex.left; simp [acc']; omega
  · apply Prod.Lex.left; simp [acc']; omega

/-- Modelled from the spec: `Crawl(seedURL, maxPages, maxDepth)` — breadth-first
traversal starting at depth 0 with the seed in the frontier; zero collected
pages (in particular an unreachable seed) is a hard `CrawlFailure`
(spec §4.1). -/
def crawl (web : String → Option Page) (seed : String) (maxPages maxDepth : Nat) :
    Except String (List (String × String × Nat)) :=
  let out := crawlLoop web maxPages maxDepth [] [(seed, 0)] ⟨[], []⟩
  if out.pages.isEmpty then .error "CrawlFailure" else .ok out.pages

/-- The fetch trace of a crawl: every URL handed to the Fetcher, in order. -/
def crawlFetched (web : String → Option Page) (seed : String) (maxPages maxDepth : Nat) :
    List String :=
  (crawlLoop web maxPages maxDepth [] [(seed, 0)] ⟨[], []⟩).fetched

/-! ## Summary search (spec §4.3) -/

/-- Lower-cased character sequence of a string, for case-insensitive
comparison. -/
def lowerChars (s : String) : List Char := s.data.map Char.toLower

/-- Modelled from the spec: case-insensitive substring test — `hay` contains
`needle` ignoring case (spec §4.3 Search). -/
def containsCI (hay needle : String) : Bool :=
  decide (lowerChars needle <:+: lowerChars hay)

/-- Modelled from the spec: a summary matches a search string when its title,
url or summary text contains it case-insensitively (spec §4.3). -/
def summaryMatches (q : String) (sm : Summary) : Bool :=
  containsCI sm.title q || containsCI sm.url q || containsCI sm.summary q

/-- Descending `createdAt` order on summaries (spec §4.3: ordering by
`createdAt` descending). -/
def byCreatedDesc (a b : Summary) : Prop := b.createdAt ≤ a.createdAt

instance : DecidableRel byCreatedDesc := fun _ _ => Nat.decLe _ _

instance : IsTotal Summary byCreatedDesc :=
  ⟨fun a b => Nat.le_total b.createdAt a.createdAt⟩

instance : IsTrans Summary byCreatedDesc :=
  ⟨fun _ _ _ hab hbc => Nat.le_trans hbc hab⟩

/-- Modelled from the spec: `ListSummaries(search, limit, offset)` — filter by
case-insensitive substring over title/url/summary text, order by `createdAt`
descending, then paginate with `limit`/`offset` (spec §4.3). -/
def listSummaries (s : Store) (q : String) (limit offset : Nat) : List Summary :=
  (((s.summaries.filter (summaryMatches q)).insertionSort byCreatedDesc).drop offset).take limit

/-! ## Scrape modal (src/unnamed/part_000, ScrapeModal) -/

/-- An HTML range input keeps its value clamped to `[lo, hi]`; the two sliders
in `ScrapeModal` carry `min="1" max="20"` and `min="1" max="5"`. -/
def rangeValue (lo hi v : Nat) : Nat := max lo (min hi v)

/-- State of the scrape modal: the two slider values
(`useState(5)` / `useState(2)` in `ScrapeModal`). -/
structure ScrapeModalState where
  maxPages : Nat
  maxDepth : Nat
deriving DecidableEq, Repr

/-- Initial modal state: `maxPages = 5`, `maxDepth = 2`. -/
def initModal : ScrapeModalState := ⟨5, 2⟩

/-- A user interaction with one of the two sliders; the payload is the value
the browser reports for the range input. -/
inductive ModalEvent where
  | pages (v : Nat)
  | depth (v : Nat)
deriving DecidableEq, Repr

/-- Effect of a slider interaction: the range input constrains the value to
its min/max bounds (1..20 for Max Pages, 1..5 for Crawl Depth). -/
def modalStep (s : ScrapeModalState) : ModalEvent → ScrapeModalState
  | .pages v => { s with maxPages := rangeValue 1 20 v }
  | .depth v => { s with maxDepth := rangeValue 1 5 v }

/-- The `(maxPages, maxDepth)` pair `handleSubmit` passes to `onScrape`, which
the dashboard posts as `max_pages` / `max_depth`
(src/unnamed/part_002, `handleScrape`). -/
def submitParams (s : ScrapeModalState) : Nat × Nat := (s.maxPages, s.maxDepth)

/-! ## Dashboard polling (src/unnamed/part_002, Home) -/

/-- The job-status response body the polling effect reads
(`res.data.status`, `res.data.error`). -/
structure JobStatusResponse where
  status : JobStatus
  error : Option String
deriving DecidableEq, Repr

/-- The dashboard state touched by the polling effect: the id being polled
(`pollingJobId`), the error banner (`error`), and counters for the
`fetchSummaries()` / `fetchStats()` refreshes a completed job triggers. -/
structure DashState where
  pollingJobId : Option Nat
  errorMsg : Option String
  summariesRefreshes : Nat
  statsRefreshes : Nat
deriving DecidableEq, Repr

/-- One tick of the 3-second polling interval (src/unnamed/part_002,
lines 44-64): with no job being polled the effect is inactive; a request
error is caught and ignored; `completed` stops polling and refreshes
summaries and stats; `failed` stops polling and surfaces the stored error
(with the fallback message); any other status leaves the state — and hence
the interval — unchanged. -/
def pollTick (s : DashState) (resp : Option JobStatusResponse) : DashState :=
  match s.pollingJobId with
  | none => s
  | some _ =>
    match resp with
    | none => s
    | some r =>
      if r.status = .completed then
        { s with
          pollingJobId := none
          summariesRefreshes := s.summariesRefreshes + 1
          statsRefreshes := s.statsRefreshes + 1 }
      else if r.status = .failed then
        { s with
          pollingJobId := none
          errorMsg := some (r.error.getD "Scraping job failed") }
      else s

/-! ## Frontend helpers embedded from the source -/

/-- Embeds `truncateText` from `src/frontend/components/SummaryCard.js`:
`if (text.length <= maxLength) return text; return text.slice(0, maxLength) + "...";`
JS strings are modelled as lists of characters. -/
def truncateText (text : List Char) (maxLength : Nat := 200) : List Char :=
  if text.length ≤ maxLength then text
  else text.take maxLength ++ "...".toList

/-- Embeds `formatDate` from `src/frontend/components/SummaryCard.js` (and the
identical helper in `SummaryDetailModal`): the date-fns `format (new Date s)`
call, which may throw, is abstracted as a function returning `Option String`
(`none` models a thrown exception); the `try/catch` returns the input on `none`. -/
def formatDate (tryFormat : String → Option String) (dateString : String) : String :=
  match tryFormat dateString with
  | some r => r
  | none => dateString

/-! ## Invariants and example inputs used by the theorems -/

/-- Job ids are unique and below the fresh-id counter (spec §3: `id` unique,
monotonically assigned). -/
def JobIdsOk (s : Store) : Prop :=
  (∀ j ∈ s.jobs, j.id < s.nextJobId) ∧ (s.jobs.map (fun j => j.id)).Nodup

/-- Every Summary is backed by a job that reached `completed`
(one direction of the spec §3 Summary invariant). -/
def summariesBackedByJobs (s : Store) : Prop :=
  ∀ sm ∈ s.summaries, ∃ j ∈ s.jobs, j.id = sm.jobId ∧ j.status = JobStatus.completed

/-- Every `completed` job has a persisted Summary
(the other direction of the spec §3 Summary invariant). -/
def completedJobsHaveSummaries (s : Store) : Prop :=
  ∀ j ∈ s.jobs, j.status = JobStatus.completed →
    ∃ sm ∈ s.summaries, sm.jobId = j.id

/-- The spec §3 invariant as stated: a Summary exists if and only if its
originating Job reached `completed`. -/
def summaryJobIff (s : Store) : Prop :=
  summariesBackedByJobs s ∧ completedJobsHaveSummaries s

/-- True for every operation except `deleteSummary`. -/
def noDelete : StoreOp → Bool
  | .deleteSummary _ => false
  | _ => true

/-- Concrete summary payload used in examples. -/
def demoData : SummaryData := ⟨"https://docs.example.com", "t", "c", "s", 0⟩

/-- Operation history whose final state has a completed job but no summary:
the summary of the completed job is deleted afterwards. -/
def badOps : List StoreOp :=
  [.createJob "https://docs.example.com" 3 2, .claim, .complete 1 demoData,
   .deleteSummary 1]

/-- A delete-free operation history driving one job to completion. -/
def goodOps : List StoreOp :=
  [.createJob "https://docs.example.com" 3 2, .claim, .complete 1 demoData]

/-- Example web for the crawl scenario of spec §8: a seed page with five
same-host links, two of them reachable. -/
def exWeb (u : String) : Option Page :=
  if u = "s" then some ⟨"S", ["a", "b", "c", "d", "e"]⟩
  else if u = "a" then some ⟨"A", ["s", "a"]⟩
  else if u = "b" then some ⟨"B", []⟩
  else none

/-- Example web where the seed links twice to a URL whose fetch fails. -/
def dupWeb (u : String) : Option Page :=
  if u = "s" then some ⟨"S", ["x", "x"]⟩ else none

/-- Example summary titled "Ethereum Guide". -/
def smEth : Summary :=
  ⟨1, 1, "https://eth.example", "Ethereum Guide", "c", "text", 10⟩

/-- Example summary titled "Bitcoin Basics". -/
def smBtc : Summary :=
  ⟨2, 2, "https://btc.example", "Bitcoin Basics", "c", "text", 20⟩

/-- Example store holding the two summaries of the spec §8 search property. -/
def exEthStore : Store := ⟨[], [smEth, smBtc], 3, 3⟩

/-! ## Theorems -/

/-- C9: `truncateText` with the default maxLength of 200 returns texts of at
most 200 characters unchanged, and otherwise exactly the first 200 characters
followed by "..."; the result never exceeds 203 characters and is always a
prefix of the input, possibly extended by "...". -/
theorem truncateText_spec (text : List Char) :
    (text.length ≤ 200 → truncateText text = text) ∧
    (200 < text.length → truncateText text = text.take 200 ++ "...".toList) ∧
    (truncateText text).length ≤ 203 ∧
    (∃ p, p <+: text ∧
      (truncateText text = p ∨ truncateText text = p ++ "...".toList)) := by
  unfold truncateText
  by_cases h : text.length ≤ 200
  · rw [if_pos h]
    exact ⟨fun _ => rfl, fun h' => absurd h (by omega),
      by omega, text, List.prefix_refl text, Or.inl rfl⟩
  · rw [if_neg h]
    refine ⟨fun h' => absurd h' h, fun _ => rfl, ?_, text.take 200,
      List.take_prefix 200 text, Or.inr rfl⟩
    have h3 : ("...".toList).length = 3 := by decide
    have h200 : (text.take 200).length ≤ 200 := by
      simp
    simp only [List.length_append]
    omega

/-- Witness for C9 at concrete inputs: a short text is returned unchanged and
a 250-character text is cut to its first 200 characters plus "...". -/
theorem truncateText_spec_witness :
    truncateText (List.replicate 5 'a') = List.replicate 5 'a' ∧
    truncateText (List.replicate 250 'a') =
      (List.replicate 250 'a').take 200 ++ "...".toList :=
  ⟨(truncateText_spec (List.replicate 5 'a')).1 (by rw [List.length_replicate]; omega),
   (truncateText_spec (List.replicate 250 'a')).2.1 (by rw [List.length_replicate]; omega)⟩

/-- C10: `formatDate` is total by construction: it returns the formatted date
when the underlying parse-and-format succeeds and returns the original input
string unchanged when it throws (modelled as `none`), never propagating the
exception. -/
theorem formatDate_total (tryFormat : String → Option String) (s : String) :
    (∀ r, tryFormat s = some r → formatDate tryFormat s = r) ∧
    (tryFormat s = none → formatDate tryFormat s = s) := by
  constructor
  · intro r h
    simp [formatDate, h]
  · intro h
    simp [formatDate, h]

/-- Witness for C10: with a formatter that always throws, the input comes
back unchanged. -/
theorem formatDate_total_witness :
    formatDate (fun _ => none) "2024-01-01" = "2024-01-01" :=
  (formatDate_total (fun _ => none) "2024-01-01").2 rfl

/-- C8: a polling tick stops polling exactly on a terminal status and never
before: `completed` clears the polled job id and refreshes summaries and
stats, `failed` clears it and surfaces the stored error (or the fallback
message), and a non-terminal status (`queued`, `processing`) leaves the
dashboard state — hence the active interval — unchanged. -/
theorem pollTick_spec (s : DashState) (r : JobStatusResponse) (jid : Nat)
    (h : s.pollingJobId = some jid) :
    ((pollTick s (some r)).pollingJobId = none ↔
      (r.status = .completed ∨ r.status = .failed)) ∧
    (r.status = .completed →
      pollTick s (some r) =
        { s with
          pollingJobId := none
          summariesRefreshes := s.summariesRefreshes + 1
          statsRefreshes := s.statsRefreshes + 1 }) ∧
    (r.status = .failed →
      pollTick s (some r) =
        { s with
          pollingJobId := none
          errorMsg := some (r.error.getD "Scraping job failed") }) ∧
    ((r.status = .queued ∨ r.status = .processing) → pollTick s (some r) = s) := by
  unfold pollTick
  rw [h]
  cases hst : r.status <;> simp [hst, h]

/-- Witness for C8: polling one job, a completed response stops polling and
bumps both refresh counters. -/
theorem pollTick_spec_witness :
    pollTick ⟨some 1, none, 0, 0⟩ (some ⟨JobStatus.completed, none⟩) =
      ⟨none, none, 1, 1⟩ := by
  have h :=
    (pollTick_spec ⟨some 1, none, 0, 0⟩ ⟨JobStatus.completed, none⟩ 1 rfl).2.1 rfl
  simpa using h

/-- The two slider values stay within their range-input bounds under any
sequence of interactions. -/
theorem modal_inv (events : List ModalEvent) (s : ScrapeModalState)
    (h : 1 ≤ s.maxPages ∧ s.maxPages ≤ 20 ∧ 1 ≤ s.maxDepth ∧ s.maxDepth ≤ 5) :
    1 ≤ (events.foldl modalStep s).maxPages ∧
    (events.foldl modalStep s).maxPages ≤ 20 ∧
    1 ≤ (events.foldl modalStep s).maxDepth ∧
    (events.foldl modalStep s).maxDepth ≤ 5 := by
  induction events generalizing s with
  | nil => exact h
  | cons e rest ih =>
    refine ih (modalStep s e) ?_
    cases e <;> simp [modalStep, rangeValue] <;> omega

/-- C7: every submission of the scrape modal carries `max_pages ∈ [1, 20]` and
`max_depth ∈ [1, 5]` (the range inputs keep all interactions within bounds,
starting from the defaults 5 and 2); in-bounds parameters are accepted by job
creation, which appends a `queued` job; out-of-bounds parameters are rejected
with `InvalidInput` and no job is created. -/
theorem scrapeModal_bounds (events : List ModalEvent) (s : Store) (url : String) :
    (1 ≤ (events.foldl modalStep initModal).maxPages ∧
     (events.foldl modalStep initModal).maxPages ≤ 20 ∧
     1 ≤ (events.foldl modalStep initModal).maxDepth ∧
     (events.foldl modalStep initModal).maxDepth ≤ 5) ∧
    (∃ j s', createJob s url (events.foldl modalStep initModal).maxPages
        (events.foldl modalStep initModal).maxDepth = .ok (j, s') ∧
      j.status = .queued ∧ s'.jobs = s.jobs ++ [j]) ∧
    (∀ mp md, ¬(1 ≤ mp ∧ mp ≤ 20 ∧ 1 ≤ md ∧ md ≤ 5) →
      createJob s url mp md = .error .invalidInput) := by
  have hb := modal_inv events initModal (by decide)
  refine ⟨hb, ?_, ?_⟩
  · refine ⟨⟨s.nextJobId, url, (events.foldl modalStep initModal).maxPages,
      (events.foldl modalStep initModal).maxDepth, .queued, none⟩,
      { s with
        jobs := s.jobs ++ [⟨s.nextJobId, url, (events.foldl modalStep initModal).maxPages,
          (events.foldl modalStep initModal).maxDepth, .queued, none⟩]
        nextJobId := s.nextJobId + 1 }, ?_, rfl, rfl⟩
    unfold createJob
    rw [if_pos ⟨hb.1, hb.2.1, hb.2.2.1, hb.2.2.2⟩]
  · intro mp md hmp
    unfold createJob
    rw [if_neg hmp]

/-- Witness for C7: dragging the pages slider to the browser-reported value 50
still submits 20, which is accepted; the raw pair (50, 0) is rejected with
`InvalidInput`. -/
theorem scrapeModal_bounds_witness :
    ([ModalEvent.pages 50].foldl modalStep initModal).maxPages = 20 ∧
    (∃ j s', createJob initStore "https://docs.example.com"
        ([ModalEvent.pages 50].foldl modalStep initModal).maxPages
        ([ModalEvent.pages 50].foldl modalStep initModal).maxDepth = .ok (j, s') ∧
      j.status = .queued ∧ s'.jobs = initStore.jobs ++ [j]) ∧
    createJob initStore "https://docs.example.com" 50 0 = .error .invalidInput := by
  have h := scrapeModal_bounds [ModalEvent.pages 50] initStore "https://docs.example.com"
  exact ⟨by decide, h.2.1, h.2.2 50 0 (by decide)⟩

/-! ### Status monotonicity machinery (C2) -/

theorem statusLE_refl (st : JobStatus) : statusLE st st = true := by
  cases st <;> rfl

theorem statusLE_trans (a b c : JobStatus) (h1 : statusLE a b = true)
    (h2 : statusLE b c = true) : statusLE a c = true := by
  cases a <;> cases b <;> cases c <;> simp_all [statusLE]

theorem statusLE_terminal (a b : JobStatus) (h : statusLE a b = true)
    (ht : a = .completed ∨ a = .failed) : b = a := by
  cases a <;> cases b <;> simp_all [statusLE]

theorem findStatus_append (i : Nat) (l l2 : List Job) (st : JobStatus)
    (h : findStatus i l = some st) : findStatus i (l ++ l2) = some st := by
  induction l with
  | nil => simp [findStatus] at h
  | cons j rest ih =>
    simp only [List.cons_append, findStatus] at h ⊢
    by_cases hj : j.id = i
    · rw [if_pos hj] at h ⊢
      exact h
    · rw [if_neg hj] at h ⊢
      exact ih h

theorem claimFirst_findStatus (i : Nat) (st : JobStatus) :
    ∀ (l : List Job) (c : Job) (l' : List Job), claimFirst l = some (c, l') →
      findStatus i l = some st →
      findStatus i l' = some st ∨
        (st = .queued ∧ findStatus i l' = some .processing) := by
  intro l
  induction l with
  | nil =>
    intro c l' h _
    simp [claimFirst] at h
  | cons j rest ih =>
    intro c l' h hf
    simp only [claimFirst] at h
    by_cases hq : j.status = .queued
    · rw [if_pos hq] at h
      injection h with h1
      injection h1 with hc hl
      subst hc hl
      simp only [findStatus] at hf ⊢
      by_cases hj : j.id = i
      · rw [if_pos hj] at hf ⊢
        injection hf with hst
        exact Or.inr ⟨by rw [← hst, hq], rfl⟩
      · rw [if_neg hj] at hf ⊢
        exact Or.inl hf
    · rw [if_neg hq] at h
      cases hrest : claimFirst rest with
      | none =>
        rw [hrest] at h
        simp at h
      | some p =>
        obtain ⟨c0, l0⟩ := p
        rw [hrest] at h
        simp only [Option.map] at h
        injection h with h1
        injection h1 with hc hl
        subst hc hl
        simp only [findStatus] at hf ⊢
        by_cases hj : j.id = i
        · rw [if_pos hj] at hf ⊢
          exact Or.inl hf
        · rw [if_neg hj] at hf ⊢
          exact ih c0 l0 hrest hf

theorem setTerminal_findStatus (jid : Nat) (stT : JobStatus) (err : Option String)
    (i : Nat) (st : JobStatus) :
    ∀ (l l' : List Job), setTerminal jid stT err l = some l' →
      findStatus i l = some st →
      findStatus i l' = some st ∨
        (st = .processing ∧ findStatus i l' = some stT) := by
  intro l
  induction l with
  | nil =>
    intro l' h _
    simp [setTerminal] at h
  | cons j rest ih =>
    intro l' h hf
    simp only [setTerminal] at h
    by_cases hq : j.id = jid ∧ j.status = .processing
    · rw [if_pos hq] at h
      injection h with hl
      subst hl
      simp only [findStatus] at hf ⊢
      by_cases hj : j.id = i
      · rw [if_pos hj] at hf ⊢
        injection hf with hst
        exact Or.inr ⟨by rw [← hst, hq.2], rfl⟩
      · rw [if_neg hj] at hf ⊢
        exact Or.inl hf
    · rw [if_neg hq] at h
      cases hrest : setTerminal jid stT err rest with
      | none =>
        rw [hrest] at h
        simp at h
      | some l0 =>
        rw [hrest] at h
        simp only [Option.map] at h
        injection h with hl
        subst hl
        simp only [findStatus] at hf ⊢
        by_cases hj : j.id = i
        · rw [if_pos hj] at hf ⊢
          exact Or.inl hf
        · rw [if_neg hj] at hf ⊢
          exact ih l0 hrest hf

theorem stepMono (s : Store) (op : StoreOp) (i : Nat) (st : JobStatus)
    (h : statusOf s i = some st) :
    ∃ st', statusOf (step s op) i = some st' ∧ statusLE st st' = true := by
  cases op with
  | createJob url mp md =>
    by_cases hc : 1 ≤ mp ∧ mp ≤ 20 ∧ 1 ≤ md ∧ md ≤ 5
    · have hcj : createJob s url mp md =
          .ok (⟨s.nextJobId, url, mp, md, .queued, none⟩,
            { s with
              jobs := s.jobs ++ [⟨s.nextJobId, url, mp, md, .queued, none⟩]
              nextJobId := s.nextJobId + 1 }) := by
        unfold createJob
        rw [if_pos hc]
      refine ⟨st, ?_, statusLE_refl st⟩
      simp only [step, hcj]
      exact findStatus_append i s.jobs _ st h
    · have hcj : createJob s url mp md = .error .invalidInput := by
        unfold createJob
        rw [if_neg hc]
      refine ⟨st, ?_, statusLE_refl st⟩
      simp only [step, hcj]
      exact h
  | claim =>
    cases hc : claimFirst s.jobs with
    | none =>
      refine ⟨st, ?_, statusLE_refl st⟩
      simp only [step, claimStore, hc]
      exact h
    | some p =>
      obtain ⟨c0, l0⟩ := p
      rcases claimFirst_findStatus i st s.jobs c0 l0 hc h with h1 | ⟨h2, h3⟩
      · refine ⟨st, ?_, statusLE_refl st⟩
        simp only [step, claimStore, hc]
        exact h1
      · subst h2
        refine ⟨.processing, ?_, rfl⟩
        simp only [step, claimStore, hc]
        exact h3
  | complete jid d =>
    cases hc : setTerminal jid .completed none s.jobs with
    | none =>
      refine ⟨st, ?_, statusLE_refl st⟩
      simp only [step, completeStore, hc]
      exact h
    | some l0 =>
      rcases setTerminal_findStatus jid .completed none i st s.jobs l0 hc h with
        h1 | ⟨h2, h3⟩
      · refine ⟨st, ?_, statusLE_refl st⟩
        simp only [step, completeStore, hc]
        exact h1
      · subst h2
        refine ⟨.completed, ?_, rfl⟩
        simp only [step, completeStore, hc]
        exact h3
  | markFailed jid msg =>
    cases hc : setTerminal jid .failed (some msg) s.jobs with
    | none =>
      refine ⟨st, ?_, statusLE_refl st⟩
      simp only [step, markFailedStore, hc]
      exact h
    | some l0 =>
      rcases setTerminal_findStatus jid .failed (some msg) i st s.jobs l0 hc h with
        h1 | ⟨h2, h3⟩
      · refine ⟨st, ?_, statusLE_refl st⟩
        simp only [step, markFailedStore, hc]
        exact h1
      · subst h2
        refine ⟨.failed, ?_, rfl⟩
        simp only [step, markFailedStore, hc]
        exact h3
  | deleteSummary sid =>
    exact ⟨st, h, statusLE_refl st⟩

theorem applyOps_mono (ops : List StoreOp) :
    ∀ (s : Store) (i : Nat) (st : JobStatus), statusOf s i = some st →
      ∃ st', statusOf (applyOps s ops) i = some st' ∧ statusLE st st' = true := by
  induction ops with
  | nil =>
    intro s i st h
    exact ⟨st, h, statusLE_refl st⟩
  | cons op rest ih =>
    intro s i st h
    obtain ⟨st1, h1, hle1⟩ := stepMono s op i st h
    obtain ⟨st2, h2, hle2⟩ := ih (step s op) i st1 h1
    exact ⟨st2, h2, statusLE_trans st st1 st2 hle1 hle2⟩

/-- C2: job status moves only forward along
queued → processing → (completed | failed): along every sequence of store
operations (CreateJob, Claim, Complete/MarkCompleted, MarkFailed,
DeleteSummary), the observed status of a job only advances in the
`statusLE` order, and once it is `completed` or `failed` it never changes
again. -/
theorem status_monotone (s : Store) (ops : List StoreOp) (i : Nat)
    (st st' : JobStatus) (h : statusOf s i = some st)
    (h' : statusOf (applyOps s ops) i = some st') :
    statusLE st st' = true ∧ ((st = .completed ∨ st = .failed) → st' = st) := by
  obtain ⟨st2, h2, hle⟩ := applyOps_mono ops s i st h
  rw [h'] at h2
  injection h2 with he
  subst he
  exact ⟨hle, statusLE_terminal st st' hle⟩

/-- Witness for C2: a queued job claimed and completed moves forward
(`statusLE queued completed`), and a completed job stays completed under a
further MarkFailed attempt. -/
theorem status_monotone_witness :
    statusLE .queued .completed = true ∧
    (JobStatus.completed = JobStatus.completed ∨
      JobStatus.completed = JobStatus.failed → JobStatus.completed = JobStatus.completed) := by
  have h1 := status_monotone (applyOps initStore [.createJob "u" 3 2]) goodOps.tail 1
    .queued .completed (by decide) (by decide)
  have h2 := status_monotone (applyOps initStore goodOps) [.markFailed 1 "late"] 1
    .completed .completed (by decide) (by decide)
  exact ⟨h1.1, fun _ => h2.2 (Or.inl rfl)⟩

/-! ### Claim mutual exclusion machinery (C5) -/

theorem claimFirst_src : ∀ (l : List Job) (c : Job) (l' : List Job),
    claimFirst l = some (c, l') →
    ∃ j0, j0 ∈ l ∧ j0.status = JobStatus.queued ∧
      c = { j0 with status := JobStatus.processing } := by
  intro l
  induction l with
  | nil =>
    intro c l' h
    simp [claimFirst] at h
  | cons j rest ih =>
    intro c l' h
    simp only [claimFirst] at h
    by_cases hq : j.status = .queued
    · rw [if_pos hq] at h
      injection h with h1
      injection h1 with hc hl
      exact ⟨j, List.mem_cons_self j rest, hq, hc.symm⟩
    · rw [if_neg hq] at h
      cases hrest : claimFirst rest with
      | none =>
        rw [hrest] at h
        simp at h
      | some p =>
        obtain ⟨c0, l0⟩ := p
        rw [hrest] at h
        simp only [Option.map] at h
        injection h with h1
        injection h1 with hc hl
        obtain ⟨j0, hj0, hjq, hjc⟩ := ih c0 l0 hrest
        exact ⟨j0, List.mem_cons_of_mem j hj0, hjq, hc ▸ hjc⟩

theorem claimFirst_map_id : ∀ (l : List Job) (c : Job) (l' : List Job),
    claimFirst l = some (c, l') →
    l'.map (fun j => j.id) = l.map (fun j => j.id) := by
  intro l
  induction l with
  | nil =>
    intro c l' h
    simp [claimFirst] at h
  | cons j rest ih =>
    intro c l' h
    simp only [claimFirst] at h
    by_cases hq : j.status = .queued
    · rw [if_pos hq] at h
      injection h with h1
      injection h1 with hc hl
      subst hl
      simp
    · rw [if_neg hq] at h
      cases hrest : claimFirst rest with
      | none =>
        rw [hrest] at h
        simp at h
      | some p =>
        obtain ⟨c0, l0⟩ := p
        rw [hrest] at h
        simp only [Option.map] at h
        injection h with h1
        injection h1 with hc hl
        subst hl
        simp only [List.map]
        rw [ih c0 l0 hrest]

theorem setTerminal_map_id (jid : Nat) (stT : JobStatus) (err : Option String) :
    ∀ (l l' : List Job), setTerminal jid stT err l = some l' →
      l'.map (fun j => j.id) = l.map (fun j => j.id) := by
  intro l
  induction l with
  | nil =>
    intro l' h
    simp [setTerminal] at h
  | cons j rest ih =>
    intro l' h
    simp only [setTerminal] at h
    by_cases hq : j.id = jid ∧ j.status = .processing
    · rw [if_pos hq] at h
      injection h with hl
      subst hl
      simp
    · rw [if_neg hq] at h
      cases hrest : setTerminal jid stT err rest with
      | none =>
        rw [hrest] at h
        simp at h
      | some l0 =>
        rw [hrest] at h
        simp only [Option.map] at h
        injection h with hl
        subst hl
        simp only [List.map]
        rw [ih l0 hrest]

theorem step_idsOk (s : Store) (op : StoreOp) (h : JobIdsOk s) :
    JobIdsOk (step s op) := by
  obtain ⟨hbound, hnd⟩ := h
  cases op with
  | createJob url mp md =>
    by_cases hc : 1 ≤ mp ∧ mp ≤ 20 ∧ 1 ≤ md ∧ md ≤ 5
    · have hcj : createJob s url mp md =
          .ok (⟨s.nextJobId, url, mp, md, .queued, none⟩,
            { s with
              jobs := s.jobs ++ [⟨s.nextJobId, url, mp, md, .queued, none⟩]
              nextJobId := s.nextJobId + 1 }) := by
        unfold createJob
        rw [if_pos hc]
      simp only [step, hcj]
      constructor
      · intro j hj
        rcases List.mem_append.mp hj with hj | hj
        · exact Nat.lt_trans (hbound j hj) (Nat.lt_succ_self _)
        · have := List.mem_singleton.mp hj
          subst this
          exact Nat.lt_succ_self _
      · rw [List.map_append, List.nodup_append]
        refine ⟨hnd, List.nodup_singleton _, ?_⟩
        intro a ha hb
        obtain ⟨j0, hj0, heq⟩ := List.mem_map.mp ha
        have hlt : j0.id < s.nextJobId := hbound j0 hj0
        have heq2 : j0.id = a := heq
        have hb2 : a = s.nextJobId := by simpa using hb
        omega
    · have hcj : createJob s url mp md = .error .invalidInput := by
        unfold createJob
        rw [if_neg hc]
      simp only [step, hcj]
      exact ⟨hbound, hnd⟩
  | claim =>
    cases hc : claimFirst s.jobs with
    | none =>
      simp only [step, claimStore, hc]
      exact ⟨hbound, hnd⟩
    | some p =>
      obtain ⟨c0, l0⟩ := p
      have hmap := claimFirst_map_id s.jobs c0 l0 hc
      simp only [step, claimStore, hc]
      constructor
      · intro j hj
        have hidm : j.id ∈ l0.map (fun j => j.id) := List.mem_map_of_mem _ hj
        rw [hmap] at hidm
        obtain ⟨j0, hj0, heq⟩ := List.mem_map.mp hidm
        rw [← heq]
        exact hbound j0 hj0
      · rw [hmap]
        exact hnd
  | complete jid d =>
    cases hc : setTerminal jid .completed none s.jobs with
    | none =>
      simp only [step, completeStore, hc]
      exact ⟨hbound, hnd⟩
    | some l0 =>
      have hmap := setTerminal_map_id jid .completed none s.jobs l0 hc
      simp only [step, completeStore, hc]
      constructor
      · intro j hj
        have hidm : j.id ∈ l0.map (fun j => j.id) := List.mem_map_of_mem _ hj
        rw [hmap] at hidm
        obtain ⟨j0, hj0, heq⟩ := List.mem_map.mp hidm
        rw [← heq]
        exact hbound j0 hj0
      · rw [hmap]
        exact hnd
  | markFailed jid msg =>
    cases hc : setTerminal jid .failed (some msg) s.jobs with
    | none =>
      simp only [step, markFailedStore, hc]
      exact ⟨hbound, hnd⟩
    | some l0 =>
      have hmap := setTerminal_map_id jid .failed (some msg) s.jobs l0 hc
      simp only [step, markFailedStore, hc]
      constructor
      · intro j hj
        have hidm : j.id ∈ l0.map (fun j => j.id) := List.mem_map_of_mem _ hj
        rw [hmap] at hidm
        obtain ⟨j0, hj0, heq⟩ := List.mem_map.mp hidm
        rw [← heq]
        exact hbound j0 hj0
      · rw [hmap]
        exact hnd
  | deleteSummary sid =>
    exact ⟨hbound, hnd⟩

theorem applyOps_idsOk (ops : List StoreOp) :
    ∀ (s : Store), JobIdsOk s → JobIdsOk (applyOps s ops) := by
  induction ops with
  | nil =>
    intro s h
    exact h
  | cons op rest ih =>
    intro s h
    exact ih (step s op) (step_idsOk s op h)

theorem reachable_idsOk (s : Store) (hs : Reachable s) : JobIdsOk s := by
  obtain ⟨ops, rfl⟩ := hs
  refine applyOps_idsOk ops initStore ?_
  constructor
  · intro j hj
    simp [initStore] at hj
  · simp [initStore]

theorem claimFirst_twice : ∀ (l : List Job),
    l.Pairwise (fun a b => a.id ≠ b.id) →
    ∀ (c1 : Job) (l1 : List Job) (c2 : Job) (l2 : List Job),
      claimFirst l = some (c1, l1) → claimFirst l1 = some (c2, l2) →
      c1.id ≠ c2.id := by
  intro l
  induction l with
  | nil =>
    intro _ c1 l1 c2 l2 h1 _
    simp [claimFirst] at h1
  | cons j rest ih =>
    intro hpw c1 l1 c2 l2 h1 h2
    have hhead : ∀ b ∈ rest, j.id ≠ b.id := (List.pairwise_cons.mp hpw).1
    have hrestpw := (List.pairwise_cons.mp hpw).2
    simp only [claimFirst] at h1
    by_cases hq : j.status = .queued
    · rw [if_pos hq] at h1
      injection h1 with h1'
      injection h1' with hc1 hl1
      subst hc1 hl1
      simp only [claimFirst] at h2
      have hnp : ({ j with status := JobStatus.processing } : Job).status ≠
          JobStatus.queued := by
        simp
      rw [if_neg hnp] at h2
      cases hrest : claimFirst rest with
      | none =>
        rw [hrest] at h2
        simp at h2
      | some p =>
        obtain ⟨c0, l0⟩ := p
        rw [hrest] at h2
        simp only [Option.map] at h2
        injection h2 with h2'
        injection h2' with hc2 hl2
        obtain ⟨j0, hj0, _, hj0c⟩ := claimFirst_src rest c0 l0 hrest
        have hc2id : c2.id = j0.id := by
          rw [← hc2, hj0c]
        exact fun heq => hhead j0 hj0 (heq.trans hc2id)
    · rw [if_neg hq] at h1
      cases hrest : claimFirst rest with
      | none =>
        rw [hrest] at h1
        simp at h1
      | some p =>
        obtain ⟨c0, l0⟩ := p
        rw [hrest] at h1
        simp only [Option.map] at h1
        injection h1 with h1'
        injection h1' with hc1 hl1
        subst hc1 hl1
        simp only [claimFirst] at h2
        rw [if_neg hq] at h2
        cases hrest2 : claimFirst l0 with
        | none =>
          rw [hrest2] at h2
          simp at h2
        | some p2 =>
          obtain ⟨c2h, l2h⟩ := p2
          rw [hrest2] at h2
          simp only [Option.map] at h2
          injection h2 with h2'
          injection h2' with hc2 hl2
          subst hc2
          exact ih hrestpw c0 l0 c2h l2h hrest hrest2

theorem claimStore_eq (s : Store) (j : Job) (s' : Store)
    (h : claimStore s = (some j, s')) :
    ∃ l', claimFirst s.jobs = some (j, l') ∧ s' = { s with jobs := l' } := by
  unfold claimStore at h
  cases hc : claimFirst s.jobs with
  | none =>
    rw [hc] at h
    simp at h
  | some p =>
    obtain ⟨c, l'⟩ := p
    rw [hc] at h
    injection h with ha hb
    injection ha with ha'
    subst ha'
    exact ⟨l', rfl, hb.symm⟩

/-- C5: two successive atomic `Claim()` calls on a reachable store never
return the same job: each returned job is in `processing`, and their ids
differ — the linearized model of two concurrent runners claiming, so at most
one runner ever holds a given job. -/
theorem claim_mutual_exclusion (s : Store) (hs : Reachable s) (j1 j2 : Job)
    (s1 s2 : Store) (h1 : claimStore s = (some j1, s1))
    (h2 : claimStore s1 = (some j2, s2)) :
    j1.id ≠ j2.id ∧ j1.status = .processing ∧ j2.status = .processing := by
  have hids := (reachable_idsOk s hs).2
  have hpm : (s.jobs.map (fun j => j.id)).Pairwise (fun a b => a ≠ b) := hids
  have hpw : s.jobs.Pairwise (fun a b => a.id ≠ b.id) := List.pairwise_map.mp hpm
  obtain ⟨l1, hc1, hs1⟩ := claimStore_eq s j1 s1 h1
  subst hs1
  obtain ⟨l2, hc2, _⟩ := claimStore_eq _ j2 s2 h2
  have hc2' : claimFirst l1 = some (j2, l2) := hc2
  refine ⟨claimFirst_twice s.jobs hpw j1 l1 j2 l2 hc1 hc2', ?_, ?_⟩
  · obtain ⟨j0, _, _, hj0c⟩ := claimFirst_src s.jobs j1 l1 hc1
    rw [hj0c]
  · obtain ⟨j0, _, _, hj0c⟩ := claimFirst_src l1 j2 l2 hc2'
    rw [hj0c]

/-- Witness for C5: with two queued jobs in the store, two successive claims
return the jobs with ids 1 and 2 — never the same job. -/
theorem claim_mutual_exclusion_witness :
    (1 : Nat) ≠ 2 ∧
      (⟨1, "a", 3, 2, .processing, none⟩ : Job).status = .processing ∧
      (⟨2, "b", 3, 2, .processing, none⟩ : Job).status = .processing := by
  have h := claim_mutual_exclusion
    (applyOps initStore [.createJob "a" 3 2, .createJob "b" 3 2])
    ⟨[.createJob "a" 3 2, .createJob "b" 3 2], rfl⟩
    ⟨1, "a", 3, 2, .processing, none⟩ ⟨2, "b", 3, 2, .processing, none⟩
    ⟨[⟨1, "a", 3, 2, .processing, none⟩, ⟨2, "b", 3, 2, .queued, none⟩], [], 3, 1⟩
    ⟨[⟨1, "a", 3, 2, .processing, none⟩, ⟨2, "b", 3, 2, .processing, none⟩], [], 3, 1⟩
    (by decide) (by decide)
  exact h

/-! ### Summary-existence invariant machinery (C3) -/

theorem claimFirst_preserves_nonqueued : ∀ (l : List Job) (c : Job) (l' : List Job),
    claimFirst l = some (c, l') → ∀ j ∈ l, j.status ≠ JobStatus.queued → j ∈ l' := by
  intro l
  induction l with
  | nil =>
    intro c l' h
    simp [claimFirst] at h
  | cons j0 rest ih =>
    intro c l' h j hj hjs
    simp only [claimFirst] at h
    by_cases hq : j0.status = .queued
    · rw [if_pos hq] at h
      injection h with h1
      injection h1 with hc hl
      subst hl
      rcases List.mem_cons.mp hj with rfl | hj
      · exact absurd hq hjs
      · exact List.mem_cons_of_mem _ hj
    · rw [if_neg hq] at h
      cases hrest : claimFirst rest with
      | none =>
        rw [hrest] at h
        simp at h
      | some p =>
        obtain ⟨c0, l0⟩ := p
        rw [hrest] at h
        simp only [Option.map] at h
        injection h with h1
        injection h1 with hc hl
        subst hl
        rcases List.mem_cons.mp hj with rfl | hj
        · exact List.mem_cons_self _ _
        · exact List.mem_cons_of_mem _ (ih c0 l0 hrest j hj hjs)

theorem claimFirst_rev : ∀ (l : List Job) (c : Job) (l' : List Job),
    claimFirst l = some (c, l') →
    ∀ j ∈ l', j ∈ l ∨ j.status = JobStatus.processing := by
  intro l
  induction l with
  | nil =>
    intro c l' h
    simp [claimFirst] at h
  | cons j0 rest ih =>
    intro c l' h j hj
    simp only [claimFirst] at h
    by_cases hq : j0.status = .queued
    · rw [if_pos hq] at h
      injection h with h1
      injection h1 with hc hl
      subst hl
      rcases List.mem_cons.mp hj with rfl | hj
      · exact Or.inr rfl
      · exact Or.inl (List.mem_cons_of_mem _ hj)
    · rw [if_neg hq] at h
      cases hrest : claimFirst rest with
      | none =>
        rw [hrest] at h
        simp at h
      | some p =>
        obtain ⟨c0, l0⟩ := p
        rw [hrest] at h
        simp only [Option.map] at h
        injection h with h1
        injection h1 with hc hl
        subst hl
        rcases List.mem_cons.mp hj with rfl | hj
        · exact Or.inl (List.mem_cons_self _ _)
        · rcases ih c0 l0 hrest j hj with hin | hp
          · exact Or.inl (List.mem_cons_of_mem _ hin)
          · exact Or.inr hp

theorem setTerminal_preserves (jid : Nat) (stT : JobStatus) (err : Option String) :
    ∀ (l l' : List Job), setTerminal jid stT err l = some l' →
      ∀ j ∈ l, j.status ≠ JobStatus.processing → j ∈ l' := by
  intro l
  induction l with
  | nil =>
    intro l' h
    simp [setTerminal] at h
  | cons j0 rest ih =>
    intro l' h j hj hjs
    simp only [setTerminal] at h
    by_cases hq : j0.id = jid ∧ j0.status = .processing
    · rw [if_pos hq] at h
      injection h with hl
      subst hl
      rcases List.mem_cons.mp hj with rfl | hj
      · exact absurd hq.2 hjs
      · exact List.mem_cons_of_mem _ hj
    · rw [if_neg hq] at h
      cases hrest : setTerminal jid stT err rest with
      | none =>
        rw [hrest] at h
        simp at h
      | some l0 =>
        rw [hrest] at h
        simp only [Option.map] at h
        injection h with hl
        subst hl
        rcases List.mem_cons.mp hj with rfl | hj
        · exact List.mem_cons_self _ _
        · exact List.mem_cons_of_mem _ (ih l0 hrest j hj hjs)

theorem setTerminal_rev (jid : Nat) (stT : JobStatus) (err : Option String) :
    ∀ (l l' : List Job), setTerminal jid stT err l = some l' →
      ∀ j ∈ l', j ∈ l ∨ (j.id = jid ∧ j.status = stT) := by
  intro l
  induction l with
  | nil =>
    intro l' h
    simp [setTerminal] at h
  | cons j0 rest ih =>
    intro l' h j hj
    simp only [setTerminal] at h
    by_cases hq : j0.id = jid ∧ j0.status = .processing
    · rw [if_pos hq] at h
      injection h with hl
      subst hl
      rcases List.mem_cons.mp hj with rfl | hj
      · exact Or.inr ⟨hq.1, rfl⟩
      · exact Or.inl (List.mem_cons_of_mem _ hj)
    · rw [if_neg hq] at h
      cases hrest : setTerminal jid stT err rest with
      | none =>
        rw [hrest] at h
        simp at h
      | some l0 =>
        rw [hrest] at h
        simp only [Option.map] at h
        injection h with hl
        subst hl
        rcases List.mem_cons.mp hj with rfl | hj
        · exact Or.inl (List.mem_cons_self _ _)
        · rcases ih l0 hrest j hj with hin | hp
          · exact Or.inl (List.mem_cons_of_mem _ hin)
          · exact Or.inr hp

theorem setTerminal_updated (jid : Nat) (stT : JobStatus) (err : Option String) :
    ∀ (l l' : List Job), setTerminal jid stT err l = some l' →
      ∃ j ∈ l', j.id = jid ∧ j.status = stT := by
  intro l
  induction l with
  | nil =>
    intro l' h
    simp [setTerminal] at h
  | cons j0 rest ih =>
    intro l' h
    simp only [setTerminal] at h
    by_cases hq : j0.id = jid ∧ j0.status = .processing
    · rw [if_pos hq] at h
      injection h with hl
      subst hl
      exact ⟨{ j0 with status := stT, error := err }, List.mem_cons_self _ _, hq.1, rfl⟩
    · rw [if_neg hq] at h
      cases hrest : setTerminal jid stT err rest with
      | none =>
        rw [hrest] at h
        simp at h
      | some l0 =>
        rw [hrest] at h
        simp only [Option.map] at h
        injection h with hl
        subst hl
        obtain ⟨j, hj, hji, hjs⟩ := ih l0 hrest
        exact ⟨j, List.mem_cons_of_mem _ hj, hji, hjs⟩

theorem step_backed (s : Store) (op : StoreOp) (h : summariesBackedByJobs s) :
    summariesBackedByJobs (step s op) := by
  cases op with
  | createJob url mp md =>
    by_cases hc : 1 ≤ mp ∧ mp ≤ 20 ∧ 1 ≤ md ∧ md ≤ 5
    · have hcj : createJob s url mp md =
          .ok (⟨s.nextJobId, url, mp, md, .queued, none⟩,
            { s with
              jobs := s.jobs ++ [⟨s.nextJobId, url, mp, md, .queued, none⟩]
              nextJobId := s.nextJobId + 1 }) := by
        unfold createJob
        rw [if_pos hc]
      simp only [step, hcj]
      intro sm hsm
      obtain ⟨j, hj, hji, hjs⟩ := h sm hsm
      exact ⟨j, List.mem_append_left _ hj, hji, hjs⟩
    · have hcj : createJob s url mp md = .error .invalidInput := by
        unfold createJob
        rw [if_neg hc]
      simp only [step, hcj]
      exact h
  | claim =>
    cases hc : claimFirst s.jobs with
    | none =>
      simp only [step, claimStore, hc]
      exact h
    | some p =>
      obtain ⟨c0, l0⟩ := p
      simp only [step, claimStore, hc]
      intro sm hsm
      obtain ⟨j, hj, hji, hjs⟩ := h sm hsm
      refine ⟨j, ?_, hji, hjs⟩
      exact claimFirst_preserves_nonqueued s.jobs c0 l0 hc j hj (by rw [hjs]; intro hh; cases hh)
  | complete jid d =>
    cases hc : setTerminal jid .completed none s.jobs with
    | none =>
      simp only [step, completeStore, hc]
      exact h
    | some l0 =>
      simp only [step, completeStore, hc]
      intro sm hsm
      rcases List.mem_cons.mp hsm with rfl | hsm
      · obtain ⟨j, hj, hji, hjs⟩ := setTerminal_updated jid .completed none s.jobs l0 hc
        exact ⟨j, hj, hji, hjs⟩
      · obtain ⟨j, hj, hji, hjs⟩ := h sm hsm
        refine ⟨j, ?_, hji, hjs⟩
        exact setTerminal_preserves jid .completed none s.jobs l0 hc j hj
          (by rw [hjs]; intro hh; cases hh)
  | markFailed jid msg =>
    cases hc : setTerminal jid .failed (some msg) s.jobs with
    | none =>
      simp only [step, markFailedStore, hc]
      exact h
    | some l0 =>
      simp only [step, markFailedStore, hc]
      intro sm hsm
      obtain ⟨j, hj, hji, hjs⟩ := h sm hsm
      refine ⟨j, ?_, hji, hjs⟩
      exact setTerminal_preserves jid .failed (some msg) s.jobs l0 hc j hj
        (by rw [hjs]; intro hh; cases hh)
  | deleteSummary sid =>
    intro sm hsm
    exact h sm (List.mem_of_mem_filter hsm)

theorem step_iff (s : Store) (op : StoreOp) (hnd : noDelete op = true)
    (h : summaryJobIff s) : summaryJobIff (step s op) := by
  obtain ⟨h1, h2⟩ := h
  refine ⟨step_backed s op h1, ?_⟩
  cases op with
  | createJob url mp md =>
    by_cases hc : 1 ≤ mp ∧ mp ≤ 20 ∧ 1 ≤ md ∧ md ≤ 5
    · have hcj : createJob s url mp md =
          .ok (⟨s.nextJobId, url, mp, md, .queued, none⟩,
            { s with
              jobs := s.jobs ++ [⟨s.nextJobId, url, mp, md, .queued, none⟩]
              nextJobId := s.nextJobId + 1 }) := by
        unfold createJob
        rw [if_pos hc]
      simp only [step, hcj]
      intro j hj hjs
      rcases List.mem_append.mp hj with hj | hj
      · exact h2 j hj hjs
      · have := List.mem_singleton.mp hj
        subst this
        cases hjs
    · have hcj : createJob s url mp md = .error .invalidInput := by
        unfold createJob
        rw [if_neg hc]
      simp only [step, hcj]
      exact h2
  | claim =>
    cases hc : claimFirst s.jobs with
    | none =>
      simp only [step, claimStore, hc]
      exact h2
    | some p =>
      obtain ⟨c0, l0⟩ := p
      simp only [step, claimStore, hc]
      intro j hj hjs
      rcases claimFirst_rev s.jobs c0 l0 hc j hj with hin | hp
      · exact h2 j hin hjs
      · rw [hjs] at hp
        cases hp
  | complete jid d =>
    cases hc : setTerminal jid .completed none s.jobs with
    | none =>
      simp only [step, completeStore, hc]
      exact h2
    | some l0 =>
      simp only [step, completeStore, hc]
      intro j hj hjs
      rcases setTerminal_rev jid .completed none s.jobs l0 hc j hj with hin | hp
      · obtain ⟨sm, hsm, hsmj⟩ := h2 j hin hjs
        exact ⟨sm, List.mem_cons_of_mem _ hsm, hsmj⟩
      · exact ⟨_, List.mem_cons_self _ _, hp.1.symm⟩
  | markFailed jid msg =>
    cases hc : setTerminal jid .failed (some msg) s.jobs with
    | none =>
      simp only [step, markFailedStore, hc]
      exact h2
    | some l0 =>
      simp only [step, markFailedStore, hc]
      intro j hj hjs
      rcases setTerminal_rev jid .failed (some msg) s.jobs l0 hc j hj with hin | hp
      · exact h2 j hin hjs
      · rw [hjs] at hp
        cases hp.2
  | deleteSummary sid =>
    cases hnd

theorem applyOps_backed (ops : List StoreOp) :
    ∀ (s : Store), summariesBackedByJobs s →
      summariesBackedByJobs (applyOps s ops) := by
  induction ops with
  | nil =>
    intro s h
    exact h
  | cons op rest ih =>
    intro s h
    exact ih (step s op) (step_backed s op h)

theorem applyOps_iff (ops : List StoreOp) :
    ∀ (s : Store), (∀ op ∈ ops, noDelete op = true) → summaryJobIff s →
      summaryJobIff (applyOps s ops) := by
  induction ops with
  | nil =>
    intro s _ h
    exact h
  | cons op rest ih =>
    intro s hnd h
    exact ih (step s op) (fun o ho => hnd o (List.mem_cons_of_mem _ ho))
      (step_iff s op (hnd op (List.mem_cons_self _ _)) h)

/-- C3 (amended): in every reachable store state every Summary's originating
Job has status `completed`; in every state reachable without `DeleteSummary`
a Summary exists if and only if its Job is `completed`; and
`Complete(job, summary)` is atomic: either it does nothing, or it both marks
the job `completed` and creates the Summary record in one unit. -/
theorem complete_atomic_summary_iff (ops : List StoreOp) :
    summariesBackedByJobs (applyOps initStore ops) ∧
    ((∀ op ∈ ops, noDelete op = true) → summaryJobIff (applyOps initStore ops)) ∧
    (∀ (s : Store) (jid : Nat) (d : SummaryData),
      completeStore s jid d = s ∨
      ((∃ j ∈ (completeStore s jid d).jobs, j.id = jid ∧ j.status = .completed) ∧
       (∃ sm ∈ (completeStore s jid d).summaries, sm.jobId = jid) ∧
       (completeStore s jid d).summaries.length = s.summaries.length + 1)) := by
  refine ⟨?_, ?_, ?_⟩
  · refine applyOps_backed ops initStore ?_
    intro sm hsm
    simp [initStore] at hsm
  · intro hnd
    refine applyOps_iff ops initStore hnd ⟨?_, ?_⟩
    · intro sm hsm
      simp [initStore] at hsm
    · intro j hj
      simp [initStore] at hj
  · intro s jid d
    cases hc : setTerminal jid .completed none s.jobs with
    | none =>
      left
      simp only [completeStore, hc]
    | some l0 =>
      right
      simp only [completeStore, hc]
      exact ⟨setTerminal_updated jid .completed none s.jobs l0 hc,
        ⟨_, List.mem_cons_self _ _, rfl⟩, by simp⟩

/-- Witness for C3's amended theorem: a delete-free history creating,
claiming and completing one job satisfies the Summary-iff-completed
invariant. -/
theorem complete_atomic_summary_iff_witness :
    summaryJobIff (applyOps initStore goodOps) :=
  (complete_atomic_summary_iff goodOps).2.1 (by decide)

/-- Counterexample to C3 as stated: after creating, claiming and completing a
job and then deleting its summary — a reachable history, every step a public
store operation — the job is still `completed` but no Summary exists, so the
"Summary exists iff job completed" biconditional fails in a reachable
state. -/
theorem summary_iff_completed_cex :
    Reachable (applyOps initStore badOps) ∧
    (∃ j ∈ (applyOps initStore badOps).jobs, j.status = JobStatus.completed) ∧
    (applyOps initStore badOps).summaries = [] ∧
    ¬ summaryJobIff (applyOps initStore badOps) := by
  refine ⟨⟨badOps, rfl⟩, by decide, by decide, ?_⟩
  intro h
  obtain ⟨sm, hsm, _⟩ := h.2
    ⟨1, "https://docs.example.com", 3, 2, .completed, none⟩ (by decide) rfl
  have hempty : (applyOps initStore badOps).summaries = [] := by decide
  rw [hempty] at hsm
  exact absurd hsm (List.not_mem_nil sm)

/-! ### Crawler machinery (C1, C4) -/

theorem crawlLoop_full (web : String → Option Page) (maxPages maxDepth : Nat)
    (visited : List String) (frontier : List (String × Nat)) (acc : CrawlOut)
    (h : maxPages ≤ acc.pages.length) :
    crawlLoop web maxPages maxDepth visited frontier acc = acc := by
  rw [crawlLoop.eq_def]
  simp only [if_pos h]

theorem crawlLoop_nil (web : String → Option Page) (maxPages maxDepth : Nat)
    (visited : List String) (acc : CrawlOut)
    (h : ¬ maxPages ≤ acc.pages.length) :
    crawlLoop web maxPages maxDepth visited [] acc = acc := by
  rw [crawlLoop]
  simp only [if_neg h]

theorem crawlLoop_visited (web : String → Option Page) (maxPages maxDepth : Nat)
    (visited : List String) (u : String) (d : Nat) (rest : List (String × Nat))
    (acc : CrawlOut) (hful : ¬ maxPages ≤ acc.pages.length) (hmem : u ∈ visited) :
    crawlLoop web maxPages maxDepth visited ((u, d) :: rest) acc =
      crawlLoop web maxPages maxDepth visited rest acc := by
  rw [crawlLoop]
  simp only [if_neg hful, hmem, if_true]

theorem crawlLoop_fail (web : String → Option Page) (maxPages maxDepth : Nat)
    (visited : List String) (u : String) (d : Nat) (rest : List (String × Nat))
    (acc : CrawlOut) (hful : ¬ maxPages ≤ acc.pages.length) (hmem : u ∉ visited)
    (hw : web u = none) :
    crawlLoop web maxPages maxDepth visited ((u, d) :: rest) acc =
      crawlLoop web maxPages maxDepth visited rest
        ⟨acc.pages, acc.fetched ++ [u]⟩ := by
  rw [crawlLoop]
  simp only [if_neg hful, hmem, if_false, hw]

theorem crawlLoop_hit_go (web : String → Option Page) (maxPages maxDepth : Nat)
    (visited : List String) (u : String) (d : Nat) (rest : List (String × Nat))
    (acc : CrawlOut) (pg : Page) (hful : ¬ maxPages ≤ acc.pages.length)
    (hmem : u ∉ visited) (hw : web u = some pg)
    (hcond : d < maxDepth ∧ (acc.pages ++ [(u, pg.content, d)]).length < maxPages) :
    crawlLoop web maxPages maxDepth visited ((u, d) :: rest) acc =
      crawlLoop web maxPages maxDepth (u :: visited)
        (rest ++ (pg.links.filter (fun v => v ∉ u :: visited)).map (fun v => (v, d + 1)))
        ⟨acc.pages ++ [(u, pg.content, d)], acc.fetched ++ [u]⟩ := by
  rw [crawlLoop]
  simp only [if_neg hful, hmem, if_false, hw]
  rw [if_pos hcond]

theorem crawlLoop_hit_stop (web : String → Option Page) (maxPages maxDepth : Nat)
    (visited : List String) (u : String) (d : Nat) (rest : List (String × Nat))
    (acc : CrawlOut) (pg : Page) (hful : ¬ maxPages ≤ acc.pages.length)
    (hmem : u ∉ visited) (hw : web u = some pg)
    (hcond : ¬ (d < maxDepth ∧ (acc.pages ++ [(u, pg.content, d)]).length < maxPages)) :
    crawlLoop web maxPages maxDepth visited ((u, d) :: rest) acc =
      crawlLoop web maxPages maxDepth (u :: visited) rest
        ⟨acc.pages ++ [(u, pg.content, d)], acc.fetched ++ [u]⟩ := by
  rw [crawlLoop]
  simp only [if_neg hful, hmem, if_false, hw]
  rw [if_neg hcond]

theorem crawlLoop_bounds (web : String → Option Page) (maxPages maxDepth : Nat)
    (visited : List String) (frontier : List (String × Nat)) (acc : CrawlOut) :
    acc.pages.length ≤ maxPages →
    (∀ p ∈ acc.pages, p.2.2 ≤ maxDepth) →
    (∀ e ∈ frontier, e.2 ≤ maxDepth) →
    (crawlLoop web maxPages maxDepth visited frontier acc).pages.length ≤ maxPages ∧
    ∀ p ∈ (crawlLoop web maxPages maxDepth visited frontier acc).pages,
      p.2.2 ≤ maxDepth := by
  induction visited, frontier, acc using crawlLoop.induct web maxPages maxDepth with
  | case1 visited frontier acc hful =>
    intro h1 h2 _
    rw [crawlLoop_full web maxPages maxDepth visited frontier acc hful]
    exact ⟨h1, h2⟩
  | case2 visited acc hful =>
    intro h1 h2 _
    rw [crawlLoop_nil web maxPages maxDepth visited acc hful]
    exact ⟨h1, h2⟩
  | case3 visited acc hful u d rest hmem ih =>
    intro h1 h2 h3
    rw [crawlLoop_visited web maxPages maxDepth visited u d rest acc hful hmem]
    exact ih h1 h2 (fun e he => h3 e (List.mem_cons_of_mem _ he))
  | case4 visited acc hful u d rest hmem hw ih =>
    intro h1 h2 h3
    rw [crawlLoop_fail web maxPages maxDepth visited u d rest acc hful hmem hw]
    exact ih h1 h2 (fun e he => h3 e (List.mem_cons_of_mem _ he))
  | case5 visited acc hful u d rest hmem pg hw visited' acc' hcond fresh ih =>
    intro h1 h2 h3
    rw [crawlLoop_hit_go web maxPages maxDepth visited u d rest acc pg hful hmem hw hcond]
    refine ih (Nat.le_of_lt hcond.2) ?_ ?_
    · intro p hp
      rcases List.mem_append.mp hp with hp | hp
      · exact h2 p hp
      · have := List.mem_singleton.mp hp
        subst this
        exact Nat.le_of_lt (Nat.lt_of_lt_of_le hcond.1 (Nat.le_refl _))
          |>.trans (Nat.le_refl _)
    · intro e he
      rcases List.mem_append.mp he with he | he
      · exact h3 e (List.mem_cons_of_mem _ he)
      · obtain ⟨v, hv, heq⟩ := List.mem_map.mp he
        have : e.2 = d + 1 := by rw [← heq]
        rw [this]
        exact hcond.1
  | case6 visited acc hful u d rest hmem pg hw visited' acc' hcond ih =>
    intro h1 h2 h3
    rw [crawlLoop_hit_stop web maxPages maxDepth visited u d rest acc pg hful hmem hw hcond]
    refine ih ?_ ?_ (fun e he => h3 e (List.mem_cons_of_mem _ he))
    · rw [List.length_append]
      simp only [List.length_singleton]
      omega
    · intro p hp
      rcases List.mem_append.mp hp with hp | hp
      · exact h2 p hp
      · have := List.mem_singleton.mp hp
        subst this
        exact h3 (u, d) (List.mem_cons_self _ _)

/-- C1: for every web, seed and bounds `maxPages ≥ 1`, `maxDepth ≥ 1`, a
successful crawl returns at most `maxPages` pages and every returned page was
discovered at depth at most `maxDepth` from the seed. -/
theorem crawl_bounded (web : String → Option Page) (seed : String)
    (maxPages maxDepth : Nat) (pages : List (String × String × Nat))
    (_hp : 1 ≤ maxPages) (_hd : 1 ≤ maxDepth)
    (h : crawl web seed maxPages maxDepth = .ok pages) :
    pages.length ≤ maxPages ∧ ∀ p ∈ pages, p.2.2 ≤ maxDepth := by
  unfold crawl at h
  have hb := crawlLoop_bounds web maxPages maxDepth [] [(seed, 0)] ⟨[], []⟩
    (by simp) (by simp) ?_
  · by_cases he : (crawlLoop web maxPages maxDepth [] [(seed, 0)] ⟨[], []⟩).pages.isEmpty
    · rw [if_pos he] at h
      cases h
    · rw [if_neg he] at h
      injection h with h'
      rw [← h']
      exact hb
  · intro e he
    have := List.mem_singleton.mp he
    subst this
    exact Nat.zero_le _

/-- Witness for C1: the spec §8 scenario — a seed with five same-host links
crawled with `maxPages = 3`, `maxDepth = 1` yields exactly 3 pages at depths
0, 1, 1; both bound conclusions hold on it. -/
theorem crawl_bounded_witness :
    crawl exWeb "s" 3 1 = .ok [("s", "S", 0), ("a", "A", 1), ("b", "B", 1)] ∧
    ([("s", "S", 0), ("a", "A", 1), ("b", "B", 1)] :
      List (String × String × Nat)).length ≤ 3 ∧
    ∀ p ∈ ([("s", "S", 0), ("a", "A", 1), ("b", "B", 1)] :
      List (String × String × Nat)), p.2.2 ≤ 1 := by
  have heq : crawl exWeb "s" 3 1 = .ok [("s", "S", 0), ("a", "A", 1), ("b", "B", 1)] := by
    simp [crawl, crawlLoop, exWeb]
  have hb := crawl_bounded exWeb "s" 3 1 [("s", "S", 0), ("a", "A", 1), ("b", "B", 1)]
    (by omega) (by omega) heq
  exact ⟨heq, hb.1, hb.2⟩

theorem crawlLoop_nodup (web : String → Option Page) (maxPages maxDepth : Nat)
    (visited : List String) (frontier : List (String × Nat)) (acc : CrawlOut) :
    (∀ p ∈ acc.pages, p.1 ∈ visited) →
    (acc.pages.map (fun p => p.1)).Nodup →
    ((crawlLoop web maxPages maxDepth visited frontier acc).pages.map
      (fun p => p.1)).Nodup := by
  induction visited, frontier, acc using crawlLoop.induct web maxPages maxDepth with
  | case1 visited frontier acc hful =>
    intro _ h2
    rw [crawlLoop_full web maxPages maxDepth visited frontier acc hful]
    exact h2
  | case2 visited acc hful =>
    intro _ h2
    rw [crawlLoop_nil web maxPages maxDepth visited acc hful]
    exact h2
  | case3 visited acc hful u d rest hmem ih =>
    intro h1 h2
    rw [crawlLoop_visited web maxPages maxDepth visited u d rest acc hful hmem]
    exact ih h1 h2
  | case4 visited acc hful u d rest hmem hw ih =>
    intro h1 h2
    rw [crawlLoop_fail web maxPages maxDepth visited u d rest acc hful hmem hw]
    exact ih h1 h2
  | case5 visited acc hful u d rest hmem pg hw visited' acc' hcond fresh ih =>
    intro h1 h2
    rw [crawlLoop_hit_go web maxPages maxDepth visited u d rest acc pg hful hmem hw hcond]
    refine ih ?_ ?_
    · intro p hp
      rcases List.mem_append.mp hp with hp | hp
      · exact List.mem_cons_of_mem _ (h1 p hp)
      · have := List.mem_singleton.mp hp
        subst this
        exact List.mem_cons_self _ _
    · rw [List.map_append, List.nodup_append]
      refine ⟨h2, List.nodup_singleton _, ?_⟩
      intro a ha hb
      obtain ⟨p, hp, heq⟩ := List.mem_map.mp ha
      have ha2 : a ∈ visited := by
        rw [← heq]
        exact h1 p hp
      have hb2 : a = u := by simpa using hb
      rw [hb2] at ha2
      exact hmem ha2
  | case6 visited acc hful u d rest hmem pg hw visited' acc' hcond ih =>
    intro h1 h2
    rw [crawlLoop_hit_stop web maxPages maxDepth visited u d rest acc pg hful hmem hw hcond]
    refine ih ?_ ?_
    · intro p hp
      rcases List.mem_append.mp hp with hp | hp
      · exact List.mem_cons_of_mem _ (h1 p hp)
      · have := List.mem_singleton.mp hp
        subst this
        exact List.mem_cons_self _ _
    · rw [List.map_append, List.nodup_append]
      refine ⟨h2, List.nodup_singleton _, ?_⟩
      intro a ha hb
      obtain ⟨p, hp, heq⟩ := List.mem_map.mp ha
      have ha2 : a ∈ visited := by
        rw [← heq]
        exact h1 p hp
      have hb2 : a = u := by simpa using hb
      rw [hb2] at ha2
      exact hmem ha2

/-- C4 (amended): no normalized URL ever appears twice in the crawl output —
the visited check before the fetch and before every enqueue deduplicates the
successfully fetched pages, and the traversal terminates on every input, even
cyclic graphs (the loop is a total function).  Only URLs whose fetch
SUCCEEDS enter `visited` (spec §4.1 "On success, add url to visited"), so a
URL whose fetch fails can be fetch-attempted more than once. -/
theorem crawl_no_revisit (web : String → Option Page) (seed : String)
    (maxPages maxDepth : Nat) (pages : List (String × String × Nat))
    (h : crawl web seed maxPages maxDepth = .ok pages) :
    (pages.map (fun p => p.1)).Nodup := by
  unfold crawl at h
  have hb := crawlLoop_nodup web maxPages maxDepth [] [(seed, 0)] ⟨[], []⟩
    (by simp) (by simp)
  by_cases he : (crawlLoop web maxPages maxDepth [] [(seed, 0)] ⟨[], []⟩).pages.isEmpty
  · rw [if_pos he] at h
    cases h
  · rw [if_neg he] at h
    injection h with h'
    rw [← h']
    exact hb

/-- Witness for C4's amended theorem: the crawl of the example web (which
contains a cycle through the seed and a self-link) outputs each URL once. -/
theorem crawl_no_revisit_witness :
    ((["s", "a", "b"] : List String)).Nodup ∧
    (([("s", "S", 0), ("a", "A", 1), ("b", "B", 1)] :
        List (String × String × Nat)).map (fun p => p.1)).Nodup := by
  have heq : crawl exWeb "s" 3 1 = .ok [("s", "S", 0), ("a", "A", 1), ("b", "B", 1)] := by
    simp [crawl, crawlLoop, exWeb]
  have hnd := crawl_no_revisit exWeb "s" 3 1
    [("s", "S", 0), ("a", "A", 1), ("b", "B", 1)] heq
  exact ⟨by decide, hnd⟩

/-- Counterexample to C4 as stated: in `dupWeb` the seed links twice to the
dead URL "x"; since a failed fetch never enters `visited`, the Fetcher is
handed "x" twice — the crawl does not fetch each normalized URL at most
once.  (The crawl output still contains no duplicate, per the amended
theorem.) -/
theorem crawl_fetch_twice_cex :
    crawlFetched dupWeb "s" 10 5 = ["s", "x", "x"] ∧
    ¬ (crawlFetched dupWeb "s" 10 5).Nodup := by
  have heq : crawlFetched dupWeb "s" 10 5 = ["s", "x", "x"] := by
    simp [crawlFetched, crawlLoop, dupWeb]
  refine ⟨heq, ?_⟩
  rw [heq]
  decide

/-- C6: `ListSummaries` with a search string (offset 0, limit covering the
store) returns exactly the stored summaries whose title, url or summary text
contains the search string as a case-insensitive substring — same elements
and multiplicities as the filter — ordered by `createdAt` descending. -/
theorem listSummaries_search (s : Store) (q : String) (limit : Nat)
    (hl : s.summaries.length ≤ limit) :
    (∀ sm, sm ∈ listSummaries s q limit 0 ↔
      sm ∈ s.summaries ∧ summaryMatches q sm = true) ∧
    (listSummaries s q limit 0).Perm (s.summaries.filter (summaryMatches q)) ∧
    (listSummaries s q limit 0).Sorted byCreatedDesc := by
  unfold listSummaries
  have hlen : ((s.summaries.filter (summaryMatches q)).insertionSort
      byCreatedDesc).length ≤ limit := by
    rw [(List.perm_insertionSort byCreatedDesc _).length_eq]
    exact le_trans (List.length_filter_le _ _) hl
  rw [List.drop_zero, List.take_of_length_le hlen]
  refine ⟨?_, List.perm_insertionSort byCreatedDesc _,
    List.sorted_insertionSort byCreatedDesc _⟩
  intro sm
  rw [(List.perm_insertionSort byCreatedDesc _).mem_iff, List.mem_filter]

/-- Witness for C6: with summaries titled "Ethereum Guide" and
"Bitcoin Basics" stored, searching "ether" returns only the first, and the
membership characterization holds at it. -/
theorem listSummaries_search_witness :
    listSummaries exEthStore "ether" 20 0 = [smEth] ∧
    (smEth ∈ listSummaries exEthStore "ether" 20 0 ↔
      smEth ∈ exEthStore.summaries ∧ summaryMatches "ether" smEth = true) ∧
    (listSummaries exEthStore "ether" 20 0).Sorted byCreatedDesc := by
  have h := listSummaries_search exEthStore "ether" 20 (by decide)
  exact ⟨by decide, h.1 smEth, h.2.2⟩

end Scraper
